import Mathlib

/-!
Shallow embedding of the append-only record store from
`internal/server/log/store.go` (Go).

Modelling conventions:
* a byte is a `Nat` (values 0..255 in every reachable/concrete state);
  a file's on-disk contents is a `List Nat`;
* `GoFile` models an `os.File`: its on-disk bytes plus whether the handle
  has been closed.  `fileReadAt f n off` models `f.ReadAt(b, off)` with a
  destination of length `n`: Go returns the full `n` bytes or an error
  (short reads at end of file, reads on a closed descriptor), and a
  zero-length destination always succeeds without touching the descriptor;
* `BufWriter` models the `bufio.Writer` wrapping the file: the bytes
  currently buffered and the sticky error flag.  `bufWrite`/`bufFlush`
  reproduce `bufio.Writer.Write`/`Flush` over the default 4096-byte
  capacity, where the only underlying write failure in the model is a
  write on a closed file (the repository never injects other I/O faults);
* machine integers: `size` is a Go `uint64`, so its update in `Append`
  is taken mod `2 ^ 64` exactly as `s.size += uint64(w)` is; positions are
  `Nat` (Go's `int64(pos)` conversion and the `Nat` model agree on every
  state whose file is shorter than `2 ^ 63` bytes, which covers all
  reachable states and all concrete witnesses below);
* fallible operations return an `Option` result paired with the updated
  store; `none` is Go's non-nil error return (Go's accompanying zero
  results `0, 0` are represented by the absence of a value);
* the `sync.Mutex` serialises the operations; the model presents the
  already-serialised sequential semantics, which is what the claims are
  about.
-/

namespace Proglog

/-- Model of an `os.File`: the on-disk byte contents and whether the
descriptor has been closed. -/
structure GoFile where
  contents : List Nat
  closed : Bool
deriving DecidableEq

/-- Model of the relevant state of a `bufio.Writer`: the buffered bytes
and the sticky error flag (`b.err`). -/
structure BufWriter where
  buffered : List Nat
  err : Bool
deriving DecidableEq

/-- `lenWidth = 8`: the width of the big-endian length field that precedes
each record (from `const lenWidth = 8` in store.go). -/
def lenWidth : Nat := 8

/-- `bufio.NewWriter` uses the default buffer size 4096. -/
def bufCap : Nat := 4096

/-- Big-endian byte encoding of `n` into `k` bytes, most significant
first; `toBytesBE 8` is `binary.BigEndian.PutUint64` (values at or above
`256 ^ k` are truncated, as the `uint64` conversion in Go truncates). -/
def toBytesBE : Nat → Nat → List Nat
  | 0, _ => []
  | k + 1, n => toBytesBE k (n / 256) ++ [n % 256]

/-- Big-endian byte decoding: `binary.BigEndian.Uint64` on an 8-byte
slice. -/
def beDecode (l : List Nat) : Nat :=
  l.foldl (fun acc b => acc * 256 + b) 0

/-- Model of `os.File.ReadAt` with a destination buffer of length `n` at
offset `off`: returns the bytes read on full success, `none` on error.
Go semantics: a zero-length destination succeeds immediately; otherwise a
read on a closed descriptor fails, and a read extending past end of file
returns fewer than `n` bytes together with a non-nil error (never a
silently short result). -/
def fileReadAt (f : GoFile) (n off : Nat) : Option (List Nat) :=
  if n = 0 then some []
  else if f.closed then none
  else if off + n ≤ f.contents.length then some ((f.contents.drop off).take n)
  else none

/-- Model of `os.File.Write`: appends to the contents, or fails if the
descriptor is closed. -/
def fileWrite (f : GoFile) (p : List Nat) : Option GoFile :=
  if f.closed then none else some ⟨f.contents ++ p, f.closed⟩

/-- Model of `bufio.Writer.Write`.  Mirrors the Go implementation: with a
pre-existing sticky error the write fails immediately; a write fitting in
the free buffer space is just copied in; a large write on an empty buffer
goes directly to the file; otherwise the buffer is topped up, flushed, and
the remainder is written directly (if still larger than the whole buffer)
or buffered.  Returns the byte count written (`nn`) on success. -/
def bufWrite (f : GoFile) (b : BufWriter) (p : List Nat) :
    Option Nat × GoFile × BufWriter :=
  if b.err then (none, f, b)
  else if p.length ≤ bufCap - b.buffered.length then
    (some p.length, f, ⟨b.buffered ++ p, b.err⟩)
  else if b.buffered = [] then
    -- large write, empty buffer: write directly to the file
    if f.closed then (none, f, ⟨b.buffered, true⟩)
    else (some p.length, ⟨f.contents ++ p, f.closed⟩, b)
  else
    -- top up the buffer (`bufCap - b.buffered.length` free bytes), flush
    -- it, then handle the remainder: write it directly if it is still
    -- larger than the whole buffer, otherwise buffer it
    if f.closed then
      (none, f, ⟨b.buffered ++ p.take (bufCap - b.buffered.length), true⟩)
    else if bufCap < (p.drop (bufCap - b.buffered.length)).length then
      (some p.length,
        ⟨f.contents ++ (b.buffered ++ p.take (bufCap - b.buffered.length))
          ++ p.drop (bufCap - b.buffered.length), f.closed⟩,
        ⟨[], b.err⟩)
    else
      (some p.length,
        ⟨f.contents ++ (b.buffered ++ p.take (bufCap - b.buffered.length)),
          f.closed⟩,
        ⟨p.drop (bufCap - b.buffered.length), b.err⟩)

/-- Model of `bufio.Writer.Flush`: fails on a sticky error; succeeds
doing nothing on an empty buffer; otherwise writes the buffered bytes to
the file (failing, and recording the sticky error, if the file is
closed).  The `Bool` is `true` on success. -/
def bufFlush (f : GoFile) (b : BufWriter) : Bool × GoFile × BufWriter :=
  if b.err then (false, f, b)
  else if b.buffered = [] then (true, f, b)
  else if f.closed then (false, f, ⟨b.buffered, true⟩)
  else (true, ⟨f.contents ++ b.buffered, f.closed⟩, ⟨[], b.err⟩)

/-- The store of store.go: the embedded file, the buffered writer and the
`size` counter (the mutex is the serialisation of the operations). -/
structure store where
  file : GoFile
  buf : BufWriter
  size : Nat
deriving DecidableEq

/-- `newStore(f)` stats the file to seed `size` and wraps it with a fresh
buffered writer.  `statOk` is whether the `os.Stat` call succeeds; when it
does it reports the on-disk size, and on failure `newStore` returns the
error and no store. -/
def newStore (f : GoFile) (statOk : Bool) : Option store :=
  if statOk then some ⟨f, ⟨[], false⟩, f.contents.length⟩ else none

/-- `Append`: records `pos = s.size`, writes the 8-byte big-endian length
of `p` through the buffered writer (`binary.Write`), then writes `p`
itself; on success adds `lenWidth` to the payload count `w` and grows
`size` by `uint64(w)` (mod `2 ^ 64`), returning `(uint64(w), pos)`.
Either write failing aborts with the error before `size` is touched. -/
def Append (s : store) (p : List Nat) : Option (Nat × Nat) × store :=
  let pos := s.size
  match bufWrite s.file s.buf (toBytesBE lenWidth p.length) with
  | (none, f1, b1) => (none, ⟨f1, b1, s.size⟩)
  | (some _, f1, b1) =>
    match bufWrite f1 b1 p with
    | (none, f2, b2) => (none, ⟨f2, b2, s.size⟩)
    | (some w, f2, b2) =>
      (some (w + lenWidth, pos), ⟨f2, b2, (s.size + (w + lenWidth)) % 2 ^ 64⟩)

/-- `Read`: flushes the buffered writer, reads the 8-byte length field at
`pos`, decodes it big-endian, then reads that many bytes at
`pos + lenWidth`; any failing step returns its error. -/
def Read (s : store) (pos : Nat) : Option (List Nat) × store :=
  match bufFlush s.file s.buf with
  | (false, f, b) => (none, ⟨f, b, s.size⟩)
  | (true, f, b) =>
    match fileReadAt f lenWidth pos with
    | none => (none, ⟨f, b, s.size⟩)
    | some sizeBytes =>
      match fileReadAt f (beDecode sizeBytes) (pos + lenWidth) with
      | none => (none, ⟨f, b, s.size⟩)
      | some record => (some record, ⟨f, b, s.size⟩)

/-- `ReadAt`: flushes the buffered writer then does a raw positional read
into the caller's destination `p` (modelled by its length); returns the
bytes that fill `p` on success. -/
def ReadAt (s : store) (p : List Nat) (off : Nat) : Option (List Nat) × store :=
  match bufFlush s.file s.buf with
  | (false, f, b) => (none, ⟨f, b, s.size⟩)
  | (true, f, b) =>
    match fileReadAt f p.length off with
    | none => (none, ⟨f, b, s.size⟩)
    | some bytes => (some bytes, ⟨f, b, s.size⟩)

/-- `Close`: flushes the buffered writer (propagating its error), then
closes the file handle; closing an already-closed handle is the
`os.ErrClosed` error path.  The `Bool` is `true` on success. -/
def Close (s : store) : Bool × store :=
  match bufFlush s.file s.buf with
  | (false, f, b) => (false, ⟨f, b, s.size⟩)
  | (true, f, b) =>
    if f.closed then (false, ⟨f, b, s.size⟩)
    else (true, ⟨⟨f.contents, true⟩, b, s.size⟩)

/-- The logical content of a store: the bytes the backing file will hold
once the write buffer is fully flushed. -/
def content (s : store) : List Nat :=
  s.file.contents ++ s.buf.buffered

/-- Per-record byte cost of a list of payloads: `8 + len(P)` summed. -/
def sumBytes (ps : List (List Nat)) : Nat :=
  (ps.map (fun p => lenWidth + p.length)).sum

/-- Sequential `Append` of a list of payloads, collecting each call's
result. -/
def appendMany : store → List (List Nat) → List (Option (Nat × Nat)) × store
  | s, [] => ([], s)
  | s, p :: ps =>
    ((Append s p).1 :: (appendMany (Append s p).2 ps).1,
      (appendMany (Append s p).2 ps).2)

/-- The byte positions at which the length-prefixed framing of a file
places record boundaries, walking frames from offset 0 (fuel-bounded
walk; the fuel is ample for every concrete file it is applied to). -/
def recordPositionsAux : Nat → List Nat → Nat → List Nat
  | 0, _, _ => []
  | fuel + 1, file, pos =>
    if pos + lenWidth ≤ file.length then
      pos :: recordPositionsAux fuel file
        (pos + lenWidth + beDecode ((file.drop pos).take lenWidth))
    else []

/-- All valid record-boundary positions of a raw file. -/
def recordPositions (file : List Nat) : List Nat :=
  recordPositionsAux (file.length + 1) file 0

/-- The size bookkeeping invariant: whenever the buffered writer is not
in a (permanent) error state, `size` equals the length the backing file
will have once the buffer is fully flushed. -/
abbrev sizeInv (s : store) : Prop :=
  s.buf.err = false → s.size = (content s).length

/-- An empty, freshly opened store over an empty file. -/
def store0 : store :=
  ⟨⟨[], false⟩, ⟨[], false⟩, 0⟩

example : (Append store0 [104, 101, 108, 108, 111]).1 = some (13, 0) := by decide

example : (Append (Append store0 [104, 101, 108, 108, 111]).2 [104, 105]).1
    = some (10, 13) := by decide

example :
    (Read (Append (Append store0 [104, 101, 108, 108, 111]).2 [104, 105]).2 0).1
      = some [104, 101, 108, 108, 111] := by decide

example :
    (Read (Append (Append store0 [104, 101, 108, 108, 111]).2 [104, 105]).2 13).1
      = some [104, 105] := by decide

/-! ### Helper lemmas about the byte encoding -/

theorem toBytesBE_length (k n : Nat) : (toBytesBE k n).length = k := by
  induction k generalizing n with
  | zero => simp [toBytesBE]
  | succ k ih => simp [toBytesBE, ih]

theorem beDecode_append_one (l : List Nat) (b : Nat) :
    beDecode (l ++ [b]) = beDecode l * 256 + b := by
  simp [beDecode, List.foldl_append]

theorem mod_pow_split (n k : Nat) :
    n % 256 ^ (k + 1) = n / 256 % 256 ^ k * 256 + n % 256 := by
  have h1 : 256 ^ (k + 1) = 256 * 256 ^ k := by ring
  rw [h1, Nat.mod_mul]
  ring

theorem beDecode_toBytesBE (k n : Nat) :
    beDecode (toBytesBE k n) = n % 256 ^ k := by
  induction k generalizing n with
  | zero => simp [toBytesBE, beDecode, Nat.mod_one]
  | succ k ih =>
    rw [toBytesBE, beDecode_append_one, ih, mod_pow_split]

theorem beDecode_toBytesBE_of_lt (n : Nat) (h : n < 2 ^ 64) :
    beDecode (toBytesBE lenWidth n) = n := by
  have h8 : (256 : Nat) ^ 8 = 2 ^ 64 := by norm_num
  rw [lenWidth, beDecode_toBytesBE, h8, Nat.mod_eq_of_lt h]

/-! ### Helper lemmas about lists -/

theorem drop_len_append {α : Type} (l₁ l₂ : List α) :
    (l₁ ++ l₂).drop l₁.length = l₂ := by
  induction l₁ with
  | nil => simp
  | cons a l ih => simp [ih]

theorem take_len_append {α : Type} (l₁ l₂ : List α) :
    (l₁ ++ l₂).take l₁.length = l₁ := by
  induction l₁ with
  | nil => simp
  | cons a l ih => simp [ih]

/-! ### Characterisation of the buffered writer -/

theorem bufWrite_open (f : GoFile) (b : BufWriter) (p : List Nat)
    (hf : f.closed = false) (hb : b.err = false) :
    (bufWrite f b p).1 = some p.length
      ∧ (bufWrite f b p).2.1.closed = false
      ∧ (bufWrite f b p).2.2.err = false
      ∧ (bufWrite f b p).2.1.contents ++ (bufWrite f b p).2.2.buffered
          = f.contents ++ b.buffered ++ p := by
  obtain ⟨fc, fcl⟩ := f
  obtain ⟨bb, be⟩ := b
  simp only at hf hb
  subst hf hb
  by_cases h1 : p.length ≤ bufCap - bb.length
  · simp [bufWrite, h1, List.append_assoc]
  · by_cases h2 : bb = []
    · subst h2
      simp only [List.length_nil, Nat.sub_zero] at h1
      simp [bufWrite, h1]
    · by_cases h3 : bufCap < p.length - (bufCap - bb.length)
      · simp [bufWrite, h1, h2, h3, List.append_assoc]
      · simp [bufWrite, h1, h2, h3, List.append_assoc]

theorem bufWrite_char (f : GoFile) (b : BufWriter) (p : List Nat) :
    ((bufWrite f b p).1 = none ∧ (bufWrite f b p).2.1 = f
        ∧ (bufWrite f b p).2.2.err = true)
    ∨ ((bufWrite f b p).1 = some p.length ∧ b.err = false
        ∧ (bufWrite f b p).2.2.err = false
        ∧ (bufWrite f b p).2.1.closed = f.closed
        ∧ (bufWrite f b p).2.1.contents ++ (bufWrite f b p).2.2.buffered
            = f.contents ++ b.buffered ++ p) := by
  obtain ⟨fc, fcl⟩ := f
  obtain ⟨bb, be⟩ := b
  cases be with
  | true => left; simp [bufWrite]
  | false =>
    by_cases h1 : p.length ≤ bufCap - bb.length
    · right; simp [bufWrite, h1, List.append_assoc]
    · by_cases h2 : bb = []
      · subst h2
        simp only [List.length_nil, Nat.sub_zero] at h1
        cases fcl with
        | true => left; simp [bufWrite, h1]
        | false => right; simp [bufWrite, h1]
      · cases fcl with
        | true => left; simp [bufWrite, h1, h2]
        | false =>
          right
          by_cases h3 : bufCap < p.length - (bufCap - bb.length)
          · simp [bufWrite, h1, h2, h3, List.append_assoc]
          · simp [bufWrite, h1, h2, h3, List.append_assoc]

theorem bufFlush_open (f : GoFile) (b : BufWriter)
    (hf : f.closed = false) (hb : b.err = false) :
    bufFlush f b = (true, ⟨f.contents ++ b.buffered, false⟩, ⟨[], false⟩) := by
  obtain ⟨fc, fcl⟩ := f
  obtain ⟨bb, be⟩ := b
  simp only at hf hb
  subst hf hb
  by_cases h : bb = []
  · simp [bufFlush, h]
  · simp [bufFlush, h]

theorem bufFlush_char (f : GoFile) (b : BufWriter) :
    ((bufFlush f b).1 = false ∧ (bufFlush f b).2.1 = f
        ∧ (bufFlush f b).2.2.buffered = b.buffered
        ∧ (bufFlush f b).2.2.err = true)
    ∨ ((bufFlush f b).1 = true ∧ (bufFlush f b).2.1.closed = f.closed
        ∧ (bufFlush f b).2.2.err = b.err
        ∧ (bufFlush f b).2.1.contents = f.contents ++ b.buffered
        ∧ (bufFlush f b).2.2.buffered = []) := by
  obtain ⟨fc, fcl⟩ := f
  obtain ⟨bb, be⟩ := b
  cases be with
  | true => left; simp [bufFlush]
  | false =>
    by_cases h : bb = []
    · right; simp [bufFlush, h]
    · cases fcl with
      | true => left; simp [bufFlush, h]
      | false => right; simp [bufFlush, h]

/-! ### Characterisation of the store operations -/

theorem Append_ok (s : store) (p : List Nat)
    (hf : s.file.closed = false) (hb : s.buf.err = false) :
    (Append s p).1 = some (p.length + lenWidth, s.size)
      ∧ (Append s p).2.file.closed = false
      ∧ (Append s p).2.buf.err = false
      ∧ content (Append s p).2 = content s ++ toBytesBE lenWidth p.length ++ p
      ∧ (Append s p).2.size = (s.size + (p.length + lenWidth)) % 2 ^ 64 := by
  have h1 := bufWrite_open s.file s.buf (toBytesBE lenWidth p.length) hf hb
  rcases heq1 : bufWrite s.file s.buf (toBytesBE lenWidth p.length) with ⟨r1, f1, b1⟩
  rw [heq1] at h1
  dsimp only at h1
  obtain ⟨h1a, h1b, h1c, h1d⟩ := h1
  subst h1a
  have h2 := bufWrite_open f1 b1 p h1b h1c
  rcases heq2 : bufWrite f1 b1 p with ⟨r2, f2, b2⟩
  rw [heq2] at h2
  dsimp only at h2
  obtain ⟨h2a, h2b, h2c, h2d⟩ := h2
  subst h2a
  simp only [Append, heq1, heq2]
  refine ⟨trivial, h2b, h2c, ?_, trivial⟩
  simp only [content] at h1d h2d ⊢
  rw [h2d, h1d]

theorem Read_snd (s : store) (pos : Nat) :
    (Read s pos).2
      = ⟨(bufFlush s.file s.buf).2.1, (bufFlush s.file s.buf).2.2, s.size⟩ := by
  rcases heq : bufFlush s.file s.buf with ⟨ok, f, b⟩
  cases ok with
  | false => simp [Read, heq]
  | true =>
    rcases heq2 : fileReadAt f lenWidth pos with _ | sb
    · simp [Read, heq, heq2]
    · rcases heq3 : fileReadAt f (beDecode sb) (pos + lenWidth) with _ | rec
      · simp [Read, heq, heq2, heq3]
      · simp [Read, heq, heq2, heq3]

theorem ReadAt_snd (s : store) (p : List Nat) (off : Nat) :
    (ReadAt s p off).2
      = ⟨(bufFlush s.file s.buf).2.1, (bufFlush s.file s.buf).2.2, s.size⟩ := by
  rcases heq : bufFlush s.file s.buf with ⟨ok, f, b⟩
  cases ok with
  | false => simp [ReadAt, heq]
  | true =>
    rcases heq2 : fileReadAt f p.length off with _ | bytes
    · simp [ReadAt, heq, heq2]
    · simp [ReadAt, heq, heq2]

theorem Close_size (s : store) : (Close s).2.size = s.size := by
  rcases heq : bufFlush s.file s.buf with ⟨ok, f, b⟩
  cases ok with
  | false => simp [Close, heq]
  | true =>
    by_cases hc : f.closed = true
    · simp [Close, heq, hc]
    · simp [Close, heq, hc]

theorem fileReadAt_exact (pre mid post : List Nat) :
    fileReadAt ⟨pre ++ mid ++ post, false⟩ mid.length pre.length = some mid := by
  by_cases h0 : mid.length = 0
  · have hmid : mid = [] := List.eq_nil_of_length_eq_zero h0
    subst hmid
    simp [fileReadAt]
  · have hle : pre.length + mid.length ≤ (pre ++ mid ++ post).length := by
      simp [List.length_append]
    simp [fileReadAt, h0, hle, List.append_assoc, drop_len_append, take_len_append]

theorem Read_roundtrip (s : store) (C p : List Nat)
    (hf : s.file.closed = false) (hb : s.buf.err = false)
    (hc : content s = C ++ toBytesBE lenWidth p.length ++ p)
    (hp : p.length < 2 ^ 64) :
    (Read s C.length).1 = some p := by
  have hfl := bufFlush_open s.file s.buf hf hb
  simp only [content] at hc
  simp only [Read, hfl, hc]
  have h1 : fileReadAt ⟨C ++ toBytesBE lenWidth p.length ++ p, false⟩
      lenWidth C.length = some (toBytesBE lenWidth p.length) := by
    have h := fileReadAt_exact C (toBytesBE lenWidth p.length) p
    rwa [toBytesBE_length] at h
  rw [h1]
  dsimp only
  rw [beDecode_toBytesBE_of_lt p.length hp]
  have h2 : fileReadAt ⟨C ++ toBytesBE lenWidth p.length ++ p, false⟩
      p.length (C.length + lenWidth) = some p := by
    have h := fileReadAt_exact (C ++ toBytesBE lenWidth p.length) p []
    simp only [List.append_nil, List.length_append, toBytesBE_length] at h
    exact h
  rw [h2]

theorem bufFlush_content (f : GoFile) (b : BufWriter) :
    (bufFlush f b).2.1.contents ++ (bufFlush f b).2.2.buffered
      = f.contents ++ b.buffered := by
  rcases bufFlush_char f b with ⟨_, hf, hb, _⟩ | ⟨_, _, _, hc, hb⟩
  · rw [hf, hb]
  · rw [hc, hb]
    simp

theorem bufFlush_err (f : GoFile) (b : BufWriter)
    (h : (bufFlush f b).2.2.err = false) : b.err = false := by
  rcases bufFlush_char f b with ⟨_, _, _, he⟩ | ⟨_, _, he, _, _⟩
  · rw [he] at h
    exact absurd h (by simp)
  · rw [he] at h
    exact h

theorem sumBytes_take_succ (ps : List (List Nat)) (i : Nat) (h : i < ps.length) :
    sumBytes (ps.take (i + 1)) = sumBytes (ps.take i) + (lenWidth + ps[i].length) := by
  induction ps generalizing i with
  | nil => simp at h
  | cons p rest ih =>
    cases i with
    | zero => simp [sumBytes]
    | succ j =>
      have hj : j < rest.length := by simpa using h
      have hr := ih j hj
      simp only [List.take_succ_cons, sumBytes, List.map_cons, List.sum_cons,
        List.getElem_cons_succ] at hr ⊢
      omega

theorem appendMany_ok (ps : List (List Nat)) : ∀ (s : store) (i : Nat),
    i < ps.length → s.file.closed = false → s.buf.err = false →
    s.size + sumBytes ps < 2 ^ 64 →
    ∀ (h : i < ps.length),
      ((appendMany s ps).1)[i]?
        = some (some (lenWidth + ps[i].length, s.size + sumBytes (ps.take i))) := by
  induction ps with
  | nil =>
    intro s i h
    simp at h
  | cons p rest ih =>
    intro s i h hf hb hov h'
    have hsum : sumBytes (p :: rest) = lenWidth + p.length + sumBytes rest := by
      simp [sumBytes]
    have hlw : lenWidth = 8 := rfl
    obtain ⟨ha, hfc, hbc, hcon, hsize⟩ := Append_ok s p hf hb
    have hsize' : (Append s p).2.size = s.size + (lenWidth + p.length) := by
      rw [hsize, Nat.mod_eq_of_lt]
      · omega
      · rw [hlw] at hsum ⊢
        omega
    cases i with
    | zero =>
      simp [appendMany, ha, sumBytes, Nat.add_comm]
    | succ j =>
      have hj : j < rest.length := by simpa using h
      have hrec := ih (Append s p).2 j hj hfc hbc
        (by rw [hsize']; rw [hlw] at hsum ⊢; omega) hj
      simp only [appendMany, List.getElem?_cons_succ, List.getElem_cons_succ,
        List.take_succ_cons]
      rw [hrec, hsize']
      have : sumBytes (p :: rest.take j) = lenWidth + p.length + sumBytes (rest.take j) := by
        simp [sumBytes]
      rw [this]
      congr 3
      omega

theorem Append_char (s : store) (p : List Nat) :
    ((Append s p).1 = none ∧ (Append s p).2.size = s.size
        ∧ (Append s p).2.buf.err = true)
    ∨ ((Append s p).1 = some (p.length + lenWidth, s.size)
        ∧ (Append s p).2.buf.err = false ∧ s.buf.err = false
        ∧ (Append s p).2.file.closed = s.file.closed
        ∧ content (Append s p).2 = content s ++ toBytesBE lenWidth p.length ++ p
        ∧ (Append s p).2.size = (s.size + (p.length + lenWidth)) % 2 ^ 64) := by
  have hch1 := bufWrite_char s.file s.buf (toBytesBE lenWidth p.length)
  rcases heq1 : bufWrite s.file s.buf (toBytesBE lenWidth p.length) with ⟨r1, f1, b1⟩
  rw [heq1] at hch1
  dsimp only at hch1
  rcases hch1 with ⟨h1n, h1f, h1e⟩ | ⟨h1s, hbe, h1e, h1c, h1con⟩
  · subst h1n
    left
    simp [Append, heq1, h1e]
  · subst h1s
    have hch2 := bufWrite_char f1 b1 p
    rcases heq2 : bufWrite f1 b1 p with ⟨r2, f2, b2⟩
    rw [heq2] at hch2
    dsimp only at hch2
    rcases hch2 with ⟨h2n, h2f, h2e⟩ | ⟨h2s, hbe2, h2e, h2c, h2con⟩
    · subst h2n
      left
      simp [Append, heq1, heq2, h2e]
    · subst h2s
      right
      refine ⟨by simp [Append, heq1, heq2, toBytesBE_length], ?_, hbe, ?_, ?_, ?_⟩
      · simp only [Append, heq1, heq2]
        exact h2e
      · simp only [Append, heq1, heq2]
        rw [h2c, h1c]
      · simp only [Append, heq1, heq2, content]
        rw [h2con, h1con]
      · simp [Append, heq1, heq2, toBytesBE_length]

theorem Close_char (s : store) :
    (Close s).2.size = s.size
      ∧ ((Close s).2.buf.err = false →
          s.buf.err = false ∧ content (Close s).2 = content s) := by
  have hch := bufFlush_char s.file s.buf
  rcases heq : bufFlush s.file s.buf with ⟨ok, fl, bl⟩
  rw [heq] at hch
  dsimp only at hch
  cases ok with
  | false =>
    rcases hch with ⟨_, hf, hb, herr⟩ | ⟨hcontra, _⟩
    · refine ⟨by simp [Close, heq], ?_⟩
      intro he
      rw [show (Close s).2 = ⟨fl, bl, s.size⟩ by simp [Close, heq]] at he
      dsimp only at he
      rw [herr] at he
      exact absurd he (by simp)
    · exact absurd hcontra (by simp)
  | true =>
    rcases hch with ⟨hcontra, _⟩ | ⟨_, hcl, herr, hcont, hbuf⟩
    · exact absurd hcontra (by simp)
    · by_cases hclosed : fl.closed = true
      · refine ⟨by simp [Close, heq, hclosed], ?_⟩
        intro he
        rw [show (Close s).2 = ⟨fl, bl, s.size⟩ by simp [Close, heq, hclosed]] at he ⊢
        dsimp only at he
        rw [herr] at he
        refine ⟨he, ?_⟩
        simp only [content]
        rw [hcont, hbuf]
        simp
      · refine ⟨by simp [Close, heq, hclosed], ?_⟩
        intro he
        rw [show (Close s).2 = ⟨⟨fl.contents, true⟩, bl, s.size⟩
          by simp [Close, heq, hclosed]] at he ⊢
        dsimp only at he
        rw [herr] at he
        refine ⟨he, ?_⟩
        simp only [content]
        rw [hcont, hbuf]
        simp

/-! ### The claims -/

/-- C1: Round-trip through buffering.  On a live store — file handle still
open, no sticky buffered-write error, `size` consistent with the content
the file will have after a full flush (all true of every store in normal
operation) — `Append p` succeeds, returns position `pos = size`, and a
`Read pos` on the resulting store (no intervening flush or close)
succeeds and returns exactly `p`.  The payload-length bound is Go's own
bound on slice lengths. -/
theorem C1_round_trip (s : store) (p : List Nat)
    (hf : s.file.closed = false) (hb : s.buf.err = false)
    (hsz : s.size = (content s).length) (hp : p.length < 2 ^ 64) :
    (Append s p).1 = some (8 + p.length, s.size)
      ∧ (Read (Append s p).2 s.size).1 = some p := by
  obtain ⟨ha, hfc, hbc, hcon, hsize⟩ := Append_ok s p hf hb
  constructor
  · rw [ha]
    have : p.length + lenWidth = 8 + p.length := by
      have hlw : lenWidth = 8 := rfl
      omega
    rw [this]
  · have hr := Read_roundtrip (Append s p).2 (content s) p hfc hbc hcon hp
    rwa [← hsz] at hr

theorem C1_round_trip_witness :
    (Append store0 [104, 101, 108, 108, 111]).1
        = some (8 + [104, 101, 108, 108, 111].length, store0.size)
      ∧ (Read (Append store0 [104, 101, 108, 108, 111]).2 store0.size).1
        = some [104, 101, 108, 108, 111] :=
  C1_round_trip store0 [104, 101, 108, 108, 111]
    (by decide) (by decide) (by decide) (by decide)

/-- C3: Append postcondition.  On a live store, a successful `Append p`
writes the 8-byte big-endian length field followed by `p` through the
write buffer (extending the store's logical content by exactly those
bytes), increments `size` by `8 + p.length` (no overflow in the uint64
arithmetic, per the bound), and returns `8 + p.length` bytes written
together with the position at which the record begins, namely the value
of `size` before the write.  The witness below checks the spec's concrete
scenario: Append "hello" on an empty store returns `(13, 0)` and the
following Append "hi" returns `(10, 13)`. -/
theorem C3_append_postcondition (s : store) (p : List Nat)
    (hf : s.file.closed = false) (hb : s.buf.err = false)
    (hov : s.size + (8 + p.length) < 2 ^ 64) :
    (Append s p).1 = some (8 + p.length, s.size)
      ∧ (Append s p).2.size = s.size + (8 + p.length)
      ∧ content (Append s p).2 = content s ++ toBytesBE lenWidth p.length ++ p := by
  obtain ⟨ha, hfc, hbc, hcon, hsize⟩ := Append_ok s p hf hb
  have hlw : lenWidth = 8 := rfl
  refine ⟨?_, ?_, hcon⟩
  · rw [ha]
    have : p.length + lenWidth = 8 + p.length := by omega
    rw [this]
  · rw [hsize, Nat.mod_eq_of_lt (by omega)]
    omega

theorem C3_append_postcondition_witness :
    (Append store0 [104, 101, 108, 108, 111]).1 = some (13, 0)
      ∧ (Append (Append store0 [104, 101, 108, 108, 111]).2 [104, 105]).1
        = some (10, 13) := by
  constructor
  · exact ((C3_append_postcondition store0 [104, 101, 108, 108, 111]
      (by decide) (by decide) (by decide)).1).trans (by decide)
  · exact ((C3_append_postcondition (Append store0 [104, 101, 108, 108, 111]).2
      [104, 105] (by decide) (by decide) (by decide)).1).trans (by decide)

/-- C8: Append error atomicity.  Whenever `Append` fails — the buffered
write of the length field or of the payload returns an error — it
returns the error with no results (modelled by the absent `Option`
value, Go's `0, 0, err`) and leaves the `size` field unchanged: `size`
is incremented only on the all-success path. -/
theorem C8_append_error_atomicity (s : store) (p : List Nat)
    (h : (Append s p).1 = none) :
    (Append s p).2.size = s.size := by
  rcases heq1 : bufWrite s.file s.buf (toBytesBE lenWidth p.length) with ⟨r1, f1, b1⟩
  cases r1 with
  | none => simp [Append, heq1]
  | some w1 =>
    rcases heq2 : bufWrite f1 b1 p with ⟨r2, f2, b2⟩
    cases r2 with
    | none => simp [Append, heq1, heq2]
    | some w2 => simp [Append, heq1, heq2] at h

/-- A store whose buffered writer already carries a sticky error, so any
further `Append` fails. -/
def sErr : store := ⟨⟨[], false⟩, ⟨[], true⟩, 0⟩

theorem C8_append_error_atomicity_witness :
    (Append sErr [1]).1 = none ∧ (Append sErr [1]).2.size = sErr.size :=
  ⟨by decide, C8_append_error_atomicity sErr [1] (by decide)⟩

/-- C9: Zero-length payload boundary case.  On a live store, `Append []`
succeeds, returns `bytesWritten = 8`, grows `size` by exactly 8, and a
subsequent `Read` at its position returns the empty payload. -/
theorem C9_empty_payload (s : store)
    (hf : s.file.closed = false) (hb : s.buf.err = false)
    (hsz : s.size = (content s).length) (hov : s.size + 8 < 2 ^ 64) :
    (Append s []).1 = some (8, s.size)
      ∧ (Append s []).2.size = s.size + 8
      ∧ (Read (Append s []).2 s.size).1 = some ([] : List Nat) := by
  obtain ⟨ha, hfc, hbc, hcon, hsize⟩ := Append_ok s [] hf hb
  have hlw : lenWidth = 8 := rfl
  refine ⟨?_, ?_, ?_⟩
  · rw [ha]
    norm_num [hlw]
  · rw [hsize]
    simp only [List.length_nil, Nat.zero_add, hlw]
    rw [Nat.mod_eq_of_lt (by omega)]
  · have hr := Read_roundtrip (Append s []).2 (content s) [] hfc hbc hcon (by norm_num)
    rwa [← hsz] at hr

theorem C9_empty_payload_witness :
    (Append store0 []).1 = some (8, store0.size)
      ∧ (Append store0 []).2.size = store0.size + 8
      ∧ (Read (Append store0 []).2 store0.size).1 = some ([] : List Nat) :=
  C9_empty_payload store0 (by decide) (by decide) (by decide) (by decide)

/-- C10: Read and ReadAt leave the write-relevant state unchanged: for
every store and every argument, neither changes the `size` field nor the
store's logical content (file contents plus buffered bytes) — their only
state effect is draining the write buffer into the file, and the state
they leave behind does not depend on their arguments at all (Read and
ReadAt leave the very same state), so sequences of reads commute with
respect to everything observable afterwards. -/
theorem C10_read_frame (s : store) (pos : Nat) (q : List Nat) (off : Nat) :
    ((Read s pos).2.size = s.size ∧ content (Read s pos).2 = content s)
      ∧ ((ReadAt s q off).2.size = s.size ∧ content (ReadAt s q off).2 = content s)
      ∧ (Read s pos).2 = (ReadAt s q off).2 := by
  have h1 := Read_snd s pos
  have h2 := ReadAt_snd s q off
  have hcon := bufFlush_content s.file s.buf
  refine ⟨⟨by rw [h1], ?_⟩, ⟨by rw [h2], ?_⟩, by rw [h1, h2]⟩
  · rw [h1]
    exact hcon
  · rw [h2]
    exact hcon

/-- C2: Position monotonicity.  For a sequence of `Append`s with payloads
`ps` on a live store (on which every `Append` succeeds, so there are no
interleaved failures; the bound rules out uint64 overflow), the i-th call
returns `8 + len(ps i)` bytes written at position
`initial size + Σ over the preceding calls of (8 + payload length)`, and
consecutive positions satisfy `position(i+1) = position(i) + 8 + len(Pi)`. -/
theorem C2_position_monotonicity (s : store) (ps : List (List Nat))
    (hf : s.file.closed = false) (hb : s.buf.err = false)
    (hov : s.size + sumBytes ps < 2 ^ 64) :
    (∀ i (h : i < ps.length),
        ((appendMany s ps).1)[i]?
          = some (some (8 + ps[i].length, s.size + sumBytes (ps.take i))))
      ∧ (∀ i (h : i + 1 < ps.length),
          s.size + sumBytes (ps.take (i + 1))
            = (s.size + sumBytes (ps.take i)) + (8 + ps[i].length)) := by
  have hlw : lenWidth = 8 := rfl
  constructor
  · intro i h
    have hm := appendMany_ok ps s i h hf hb hov h
    rw [hlw] at hm
    exact hm
  · intro i h
    have hi : i < ps.length := by omega
    have hs := sumBytes_take_succ ps i hi
    rw [hlw] at hs
    rw [hs, ← Nat.add_assoc]

theorem C2_position_monotonicity_witness :
    (((appendMany store0 [[1], [2, 3], []]).1)[0]?
          = some (some (8 + ([1] : List Nat).length, store0.size + sumBytes []))
        ∧ ((appendMany store0 [[1], [2, 3], []]).1)[1]?
          = some (some (8 + ([2, 3] : List Nat).length,
                    store0.size + sumBytes [[1]]))
        ∧ ((appendMany store0 [[1], [2, 3], []]).1)[2]?
          = some (some (8 + ([] : List Nat).length,
                    store0.size + sumBytes [[1], [2, 3]])))
      ∧ store0.size + sumBytes [[1], [2, 3]]
          = (store0.size + sumBytes [[1]]) + (8 + ([2, 3] : List Nat).length) := by
  have hmain := C2_position_monotonicity store0 [[1], [2, 3], []]
    (by decide) (by decide) (by decide)
  refine ⟨⟨?_, ?_, ?_⟩, ?_⟩
  · have h := hmain.1 0 (by decide)
    exact h.trans (by decide)
  · have h := hmain.1 1 (by decide)
    exact h.trans (by decide)
  · have h := hmain.1 2 (by decide)
    exact h.trans (by decide)
  · have h := hmain.2 1 (by decide)
    exact (by decide : store0.size + sumBytes [[1], [2, 3]]
      = store0.size + sumBytes ([[1], [2, 3], []].take (1 + 1))).trans
      (h.trans (by decide))

/-- C4: Size invariant.  Every operation keeps `size` monotonically
non-decreasing (each of Read, ReadAt and Close leaves it unchanged, and a
successful `Append p` grows it by exactly `8 + p.length`, the overflow
bound mirroring the uint64 arithmetic), and every operation preserves the
invariant that whenever the buffered writer carries no sticky error —
i.e. whenever a full flush is still possible — `size` equals the byte
length the backing file will have once the buffer is fully flushed. -/
theorem C4_size_invariant (s : store) (p q : List Nat) (pos off : Nat)
    (hInv : sizeInv s) (hov : s.size + (8 + p.length) < 2 ^ 64) :
    (sizeInv (Append s p).2 ∧ s.size ≤ (Append s p).2.size
        ∧ ((Append s p).1.isSome → (Append s p).2.size = s.size + (8 + p.length)))
      ∧ (sizeInv (Read s pos).2 ∧ (Read s pos).2.size = s.size)
      ∧ (sizeInv (ReadAt s q off).2 ∧ (ReadAt s q off).2.size = s.size)
      ∧ (sizeInv (Close s).2 ∧ (Close s).2.size = s.size) := by
  have hlw : lenWidth = 8 := rfl
  refine ⟨?_, ?_, ?_, ?_⟩
  · -- Append
    rcases Append_char s p with ⟨hn, hsz, he⟩ | ⟨hs, he, hbe, hc, hcon, hsz⟩
    · refine ⟨?_, by rw [hsz], ?_⟩
      · intro h
        rw [he] at h
        exact absurd h (by simp)
      · intro h
        rw [hn] at h
        exact absurd h (by simp)
    · have hexact : (Append s p).2.size = s.size + (8 + p.length) := by
        rw [hsz, Nat.mod_eq_of_lt (by omega)]
        omega
      refine ⟨?_, by omega, fun _ => hexact⟩
      intro _
      rw [hexact]
      calc s.size + (8 + p.length)
          = (content s).length + (8 + p.length) := by rw [hInv hbe]
        _ = (content (Append s p).2).length := by
            rw [hcon]
            simp [List.length_append, toBytesBE_length, hlw]
  · -- Read
    have h1 := Read_snd s pos
    refine ⟨?_, by rw [h1]⟩
    intro he
    rw [h1] at he ⊢
    dsimp only at he ⊢
    have hbe := bufFlush_err s.file s.buf he
    simp only [content]
    rw [bufFlush_content s.file s.buf]
    exact hInv hbe
  · -- ReadAt
    have h2 := ReadAt_snd s q off
    refine ⟨?_, by rw [h2]⟩
    intro he
    rw [h2] at he ⊢
    dsimp only at he ⊢
    have hbe := bufFlush_err s.file s.buf he
    simp only [content]
    rw [bufFlush_content s.file s.buf]
    exact hInv hbe
  · -- Close
    obtain ⟨hsz, hrest⟩ := Close_char s
    refine ⟨?_, hsz⟩
    intro he
    obtain ⟨hbe, hcont⟩ := hrest he
    rw [hsz, hcont]
    exact hInv hbe

theorem C4_size_invariant_witness :
    (sizeInv store0 ∧ store0.size + (8 + ([42] : List Nat).length) < 2 ^ 64)
      ∧ (sizeInv (Append store0 [42]).2
          ∧ store0.size ≤ (Append store0 [42]).2.size
          ∧ ((Append store0 [42]).1.isSome →
              (Append store0 [42]).2.size = store0.size + (8 + ([42] : List Nat).length)))
      ∧ (sizeInv (Read store0 0).2 ∧ (Read store0 0).2.size = store0.size)
      ∧ (sizeInv (ReadAt store0 [0] 0).2 ∧ (ReadAt store0 [0] 0).2.size = store0.size)
      ∧ (sizeInv (Close store0).2 ∧ (Close store0).2.size = store0.size) := by
  have h := C4_size_invariant store0 [42] [0] 0 0 (by decide) (by decide)
  exact ⟨⟨by decide, by decide⟩, h.1, h.2.1, h.2.2.1, h.2.2.2⟩

/-- A 16-byte payload whose first 8 bytes decode, big-endian, to 2 — so
the byte at offset 8 of the resulting file looks like a plausible length
field even though 8 is not a record boundary. -/
def cexPayload : List Nat := [0, 0, 0, 0, 0, 0, 0, 2, 97, 98, 0, 0, 0, 0, 0, 0]

/-- C5 counterexample: after appending the single record `cexPayload` to
an empty store, the only record boundary is position 0, yet `Read 8` — a
position that is not a record boundary and not beyond end-of-file —
succeeds and returns `[97, 98]`, bytes that were never a record's
payload.  This refutes the claim that every read at a non-boundary
position returns an error. -/
theorem C5_unaligned_read_succeeds :
    (Append store0 cexPayload).1 = some (24, 0)
      ∧ recordPositions (content (Append store0 cexPayload).2) = [0]
      ∧ 8 ∉ recordPositions (content (Append store0 cexPayload).2)
      ∧ (Read (Append store0 cexPayload).2 8).1 = some [97, 98] := by decide

/-- C5 (amended): on a live store, `Read pos` returns an error whenever
the 8-byte length-field read or the subsequent non-empty payload read
would extend beyond the end of the fully-flushed file — in particular
whenever `pos` is at or beyond end-of-file — and a short read is always
surfaced as an error; but a position inside the file that is not a
record boundary is not detected, and such a read may succeed, returning
bytes that are not any appended record (see the counterexample). -/
theorem C5_out_of_range_read_fails (s : store) (pos : Nat)
    (hf : s.file.closed = false) (hb : s.buf.err = false) :
    ((content s).length < pos + lenWidth → (Read s pos).1 = none)
      ∧ (pos + lenWidth ≤ (content s).length →
          0 < beDecode (((content s).drop pos).take lenWidth) →
          (content s).length
              < pos + lenWidth + beDecode (((content s).drop pos).take lenWidth) →
          (Read s pos).1 = none) := by
  have hfl := bufFlush_open s.file s.buf hf hb
  constructor
  · intro hlt
    simp only [content] at hlt
    simp only [Read, hfl]
    have h1 : fileReadAt ⟨s.file.contents ++ s.buf.buffered, false⟩ lenWidth pos
        = none := by
      unfold fileReadAt
      rw [if_neg (by decide), if_neg (by simp), if_neg (by dsimp only; omega)]
    rw [h1]
  · intro hle hpos hof
    simp only [content] at hle hpos hof
    simp only [Read, hfl]
    have h1 : fileReadAt ⟨s.file.contents ++ s.buf.buffered, false⟩ lenWidth pos
        = some (((s.file.contents ++ s.buf.buffered).drop pos).take lenWidth) := by
      unfold fileReadAt
      rw [if_neg (by decide), if_neg (by simp), if_pos (by dsimp only; omega)]
    rw [h1]
    dsimp only
    have h2 : fileReadAt ⟨s.file.contents ++ s.buf.buffered, false⟩
        (beDecode (((s.file.contents ++ s.buf.buffered).drop pos).take lenWidth))
        (pos + lenWidth) = none := by
      unfold fileReadAt
      rw [if_neg (by omega), if_neg (by simp),
        if_neg (by dsimp only; omega)]
    rw [h2]

/-- A store freshly constructed over a file already holding an 8-byte
length field announcing a 5-byte payload that is missing (truncated
file). -/
def sTrunc : store := ⟨⟨[0, 0, 0, 0, 0, 0, 0, 5], false⟩, ⟨[], false⟩, 8⟩

theorem C5_out_of_range_read_fails_witness :
    (Read sTrunc 1).1 = none ∧ (Read sTrunc 0).1 = none :=
  ⟨(C5_out_of_range_read_fails sTrunc 1 (by decide) (by decide)).1 (by decide),
   (C5_out_of_range_read_fails sTrunc 0 (by decide) (by decide)).2
     (by decide) (by decide) (by decide)⟩

/-- C6 counterexample: `Close` on a fresh empty store succeeds, and then
`Append "hi"` on the closed store also succeeds — it returns `(10, 0)`
with no error, because the bytes only go into the write buffer and
nothing forces a flush.  This refutes the claim that every operation
after a successful Close returns an error. -/
theorem C6_append_after_close_succeeds :
    (Close store0).1 = true
      ∧ (Append (Close store0).2 [104, 105]).1 = some (10, 0) := by decide

/-- C6 (amended): after a successful Close (file handle closed, write
buffer drained, no sticky error), `Read`, `ReadAt` with a non-empty
destination, and a second `Close` all return errors; `Append`, however,
succeeds silently as long as the record still fits in the write buffer —
its bytes are only rejected at the next flush. -/
theorem C6_post_close_errors (s : store) (p q : List Nat) (pos off : Nat)
    (hclosed : s.file.closed = true) (hempty : s.buf.buffered = [])
    (herr : s.buf.err = false) (hq : q ≠ []) (hp : p.length + 8 ≤ bufCap) :
    (Read s pos).1 = none
      ∧ (ReadAt s q off).1 = none
      ∧ (Close s).1 = false
      ∧ (Append s p).1 = some (8 + p.length, s.size) := by
  have hfl : bufFlush s.file s.buf = (true, s.file, s.buf) := by
    unfold bufFlush
    rw [if_neg (by simp [herr]), if_pos hempty]
  have hq0 : q.length ≠ 0 := by
    intro h
    exact hq (List.eq_nil_of_length_eq_zero h)
  refine ⟨?_, ?_, ?_, ?_⟩
  · simp only [Read, hfl]
    have h1 : fileReadAt s.file lenWidth pos = none := by
      unfold fileReadAt
      rw [if_neg (by decide), if_pos hclosed]
    rw [h1]
  · simp only [ReadAt, hfl]
    have h1 : fileReadAt s.file q.length off = none := by
      unfold fileReadAt
      rw [if_neg hq0, if_pos hclosed]
    rw [h1]
  · simp only [Close, hfl]
    rw [if_pos hclosed]
  · have hw1 : bufWrite s.file s.buf (toBytesBE lenWidth p.length)
        = (some (toBytesBE lenWidth p.length).length, s.file,
            ⟨s.buf.buffered ++ toBytesBE lenWidth p.length, s.buf.err⟩) := by
      unfold bufWrite
      rw [if_neg (by simp [herr]),
        if_pos (by simp [toBytesBE_length, hempty, lenWidth, bufCap])]
    have hw2 : bufWrite s.file
        ⟨s.buf.buffered ++ toBytesBE lenWidth p.length, s.buf.err⟩ p
        = (some p.length, s.file,
            ⟨(s.buf.buffered ++ toBytesBE lenWidth p.length) ++ p, s.buf.err⟩) := by
      unfold bufWrite
      rw [if_neg (by simp [herr]), if_pos ?_]
      dsimp only
      simp only [List.length_append, toBytesBE_length, hempty, List.length_nil]
      simp only [bufCap] at hp ⊢
      simp only [lenWidth]
      omega
    simp only [Append, hw1, hw2]
    have hc : p.length + lenWidth = 8 + p.length := by
      simp only [lenWidth]
      omega
    rw [hc]

theorem C6_post_close_errors_witness :
    (Read (Close store0).2 0).1 = none
      ∧ (ReadAt (Close store0).2 [9] 0).1 = none
      ∧ (Close (Close store0).2).1 = false
      ∧ (Append (Close store0).2 [104]).1
        = some (8 + [104].length, (Close store0).2.size) :=
  C6_post_close_errors (Close store0).2 [104] [9] 0 0
    (by decide) (by decide) (by decide) (by decide) (by decide)

/-- C7: Reopen consistency.  If a store with consistent bookkeeping is
successfully closed, then a new store constructed (with a succeeding
stat) over the resulting on-disk file starts with `size` equal to the
prior instance's final `size`, and an `Append` on the new instance
continues the position sequence exactly there; and whenever the initial
stat fails, construction returns the error and no store. -/
theorem C7_reopen_consistency (s : store) (p : List Nat) (g : GoFile)
    (hInv : s.size = (content s).length)
    (hc : (Close s).1 = true) :
    newStore ⟨(Close s).2.file.contents, false⟩ true
        = some ⟨⟨(Close s).2.file.contents, false⟩, ⟨[], false⟩, s.size⟩
      ∧ (Append (⟨⟨(Close s).2.file.contents, false⟩, ⟨[], false⟩, s.size⟩ : store) p).1
        = some (8 + p.length, s.size)
      ∧ newStore g false = none := by
  have hX : (Close s).2.file.contents = content s := by
    have hch := bufFlush_char s.file s.buf
    rcases heq : bufFlush s.file s.buf with ⟨ok, fl, bl⟩
    rw [heq] at hch
    dsimp only at hch
    cases ok with
    | false => simp [Close, heq] at hc
    | true =>
      rcases hch with ⟨hcontra, _⟩ | ⟨_, hcl, herr, hcont, hbuf⟩
      · exact absurd hcontra (by simp)
      · by_cases hclosed : fl.closed = true
        · simp [Close, heq, hclosed] at hc
        · rw [show (Close s).2 = ⟨⟨fl.contents, true⟩, bl, s.size⟩
            from by simp [Close, heq, hclosed]]
          dsimp only
          rw [hcont]
          rfl
  have hlen : (Close s).2.file.contents.length = s.size := by
    rw [hX, ← hInv]
  refine ⟨by simp [newStore, hlen], ?_, by simp [newStore]⟩
  obtain ⟨ha, _, _, _, _⟩ :=
    Append_ok ⟨⟨(Close s).2.file.contents, false⟩, ⟨[], false⟩, s.size⟩ p rfl rfl
  rw [ha]
  dsimp only
  have hcm : p.length + lenWidth = 8 + p.length := by
    simp only [lenWidth]
    omega
  rw [hcm]

/-- The store obtained by appending one single-byte record to a fresh
empty store; its buffer is non-empty, so closing it really flushes. -/
def s7 : store := (Append store0 [7]).2

theorem C7_reopen_consistency_witness :
    newStore ⟨(Close s7).2.file.contents, false⟩ true
        = some ⟨⟨(Close s7).2.file.contents, false⟩, ⟨[], false⟩, s7.size⟩
      ∧ (Append (⟨⟨(Close s7).2.file.contents, false⟩, ⟨[], false⟩, s7.size⟩ : store) [5]).1
        = some (8 + [5].length, s7.size)
      ∧ newStore ⟨[3], false⟩ false = none :=
  C7_reopen_consistency s7 [5] ⟨[3], false⟩ (by decide) (by decide)

end Proglog

